import Mathlib

/-!
# Verification of the RMG-Py chemical-graph core specification

This file embeds, in Lean 4:

* the build manifest `setup.py` (the only source file provided): its three
  extension-module inventories and the `sys.argv`-driven selection logic that
  computes `ext_modules`;
* models, written from the specification text, of the parts of the
  chemical-graph core (graph construction, ring perception, automorphism
  enumeration, wildcard subgraph matching, bounded search) whose source
  modules are declared by the manifest but not provided.

Theorems below settle the frozen claims about this code.
-/

namespace Setup

/-- One `Extension(...)` entry of the build manifest: the dotted module name,
the list of source files, and the `include_dirs` list. -/
structure Extension where
  modName : String
  srcs : List String
  incDirs : List String
deriving DecidableEq, Repr

/-- Embedding of `getMainExtensionModules` (setup.py lines 58-79). -/
def getMainExtensionModules : List Extension :=
  [ ⟨"rmgpy.molecule.atomtype", ["rmgpy/molecule/atomtype.py"], ["."]⟩,
    ⟨"rmgpy.molecule.element", ["rmgpy/molecule/element.py"], ["."]⟩,
    ⟨"rmgpy.molecule.graph", ["rmgpy/molecule/graph.py"], ["."]⟩,
    ⟨"rmgpy.molecule.group", ["rmgpy/molecule/group.py"], ["."]⟩,
    ⟨"rmgpy.molecule.molecule", ["rmgpy/molecule/molecule.py"], ["."]⟩,
    ⟨"rmgpy.molecule.symmetry", ["rmgpy/molecule/symmetry.py"], ["."]⟩,
    ⟨"rmgpy.statmech.mode", ["rmgpy/statmech/mode.pyx"], []⟩,
    ⟨"rmgpy.statmech.schrodinger", ["rmgpy/statmech/schrodinger.pyx"], []⟩,
    ⟨"rmgpy.constants", ["rmgpy/constants.py"], ["."]⟩,
    ⟨"rmgpy.kinetics", ["rmgpy/kinetics.py"], ["."]⟩,
    ⟨"rmgpy.quantity", ["rmgpy/quantity.py"], ["."]⟩,
    ⟨"rmgpy.reaction", ["rmgpy/reaction.py"], ["."]⟩,
    ⟨"rmgpy.species", ["rmgpy/species.py"], ["."]⟩,
    ⟨"rmgpy._statmech", ["rmgpy/_statmech.pyx"], ["."]⟩,
    ⟨"rmgpy.statmech", ["rmgpy/statmech.py"], ["."]⟩,
    ⟨"rmgpy.thermo", ["rmgpy/thermo.py"], ["."]⟩ ]

/-- Embedding of `getMeasureExtensionModules` (setup.py lines 81-93). -/
def getMeasureExtensionModules : List Extension :=
  [ ⟨"rmgpy.measure._network", ["rmgpy/measure/_network.pyx"], ["."]⟩,
    ⟨"rmgpy.measure.collision", ["rmgpy/measure/collision.pyx"], ["."]⟩,
    ⟨"rmgpy.measure.reaction", ["rmgpy/measure/reaction.pyx"], ["."]⟩,
    ⟨"rmgpy.measure.msc", ["rmgpy/measure/msc.pyx"], ["."]⟩,
    ⟨"rmgpy.measure.rs", ["rmgpy/measure/rs.pyx"], ["."]⟩,
    ⟨"rmgpy.measure.cse", ["rmgpy/measure/cse.pyx"], ["."]⟩,
    ⟨"rmgpy.measure.me", ["rmgpy/measure/me.pyx"], ["."]⟩,
    ⟨"rmgpy.constants", ["rmgpy/constants.py"], ["."]⟩,
    ⟨"rmgpy.quantity", ["rmgpy/quantity.py"], ["."]⟩,
    ⟨"rmgpy._statmech", ["rmgpy/_statmech.pyx"], ["."]⟩ ]

/-- Embedding of `getSolverExtensionModules` (setup.py lines 95-99). -/
def getSolverExtensionModules : List Extension :=
  [ ⟨"rmgpy.solver.base", ["rmgpy/solver/base.pyx"], ["."]⟩,
    ⟨"rmgpy.solver.simple", ["rmgpy/solver/simple.pyx"], ["."]⟩ ]

/-- Embedding of the module-selection block of setup.py (lines 103-120).
Input: `sys.argv` as a list of strings.  Output: the final `ext_modules`
list together with the final state of `sys.argv` (Python's
`sys.argv.remove(kw)` deletes the first occurrence of `kw`, which is
`List.erase`). -/
def selectExtensions (argv : List String) : List Extension × List String :=
  if argv.contains "install" then
    (getMainExtensionModules ++ getMeasureExtensionModules ++ getSolverExtensionModules, argv)
  else if argv.contains "main" then
    (getMainExtensionModules, argv.erase "main")
  else if argv.contains "measure" then
    (getMeasureExtensionModules, argv.erase "measure")
  else if argv.contains "solver" then
    (getSolverExtensionModules, argv.erase "solver")
  else
    ([], argv)

/-- The dotted module names declared by a list of extension entries. -/
def extNames (es : List Extension) : List String :=
  es.map Extension.modName

/-- `true` iff a dotted module name lies under the `rmgpy.molecule` package. -/
def underMolecule (s : String) : Bool :=
  "rmgpy.molecule.".toList.isPrefixOf s.toList

/-- Every extension entry any branch of the manifest can declare. -/
def allExtensionModules : List Extension :=
  getMainExtensionModules ++ getMeasureExtensionModules ++ getSolverExtensionModules

end Setup

namespace Setup

/-- C1: the build manifest declares exactly six extension modules under
`rmgpy.molecule` — atomtype, element, graph, group, molecule, symmetry —
across all three inventories (all six live in the main inventory). -/
theorem setup_molecule_modules_exactly_six :
    (extNames allExtensionModules).filter underMolecule =
      ["rmgpy.molecule.atomtype", "rmgpy.molecule.element", "rmgpy.molecule.graph",
       "rmgpy.molecule.group", "rmgpy.molecule.molecule", "rmgpy.molecule.symmetry"] ∧
    ((extNames allExtensionModules).filter underMolecule).length = 6 ∧
    (extNames getMainExtensionModules).filter underMolecule =
      (extNames allExtensionModules).filter underMolecule := by
  refine ⟨by decide, by decide, by decide⟩

/-- C8: the `ext_modules` selection is decided by the first matching keyword
in the priority order install, main, measure, solver; `install` takes all
three inventories; no keyword leaves `ext_modules` empty. -/
theorem extModules_selection (argv : List String) :
    (argv.contains "install" = true →
      (selectExtensions argv).1 = allExtensionModules) ∧
    (argv.contains "install" = false → argv.contains "main" = true →
      (selectExtensions argv).1 = getMainExtensionModules) ∧
    (argv.contains "install" = false → argv.contains "main" = false →
      argv.contains "measure" = true →
      (selectExtensions argv).1 = getMeasureExtensionModules) ∧
    (argv.contains "install" = false → argv.contains "main" = false →
      argv.contains "measure" = false → argv.contains "solver" = true →
      (selectExtensions argv).1 = getSolverExtensionModules) ∧
    (argv.contains "install" = false → argv.contains "main" = false →
      argv.contains "measure" = false → argv.contains "solver" = false →
      (selectExtensions argv).1 = []) := by
  refine ⟨?_, ?_, ?_, ?_, ?_⟩ <;> intro h1
  · have h1' : "install" ∈ argv := by simpa using h1
    simp [selectExtensions, allExtensionModules, h1']
  all_goals intro h2
  all_goals
    have h1' : "install" ∉ argv := by simpa using h1
  · have h2' : "main" ∈ argv := by simpa using h2
    simp [selectExtensions, h1', h2']
  all_goals intro h3
  all_goals
    have h2' : "main" ∉ argv := by simpa using h2
  · have h3' : "measure" ∈ argv := by simpa using h3
    simp [selectExtensions, h1', h2', h3']
  all_goals intro h4
  all_goals
    have h3' : "measure" ∉ argv := by simpa using h3
  · have h4' : "solver" ∈ argv := by simpa using h4
    simp [selectExtensions, h1', h2', h3', h4']
  · have h4' : "solver" ∉ argv := by simpa using h4
    simp [selectExtensions, h1', h2', h3', h4']

/-- Witness for C8 at concrete command lines: `install` overrides the other
keywords, `main` alone selects the main inventory, and a keyword-free
command line selects nothing. -/
theorem extModules_selection_witness :
    (selectExtensions ["setup.py", "install", "main"]).1 = allExtensionModules ∧
    (selectExtensions ["setup.py", "build_ext", "main"]).1 = getMainExtensionModules ∧
    (selectExtensions ["setup.py", "build_ext"]).1 = [] :=
  ⟨(extModules_selection _).1 (by decide),
   (extModules_selection _).2.1 (by decide) (by decide),
   (extModules_selection _).2.2.2.2 (by decide) (by decide) (by decide) (by decide)⟩

/-- C9: under `install`, the concatenated `ext_modules` list names
`rmgpy.constants`, `rmgpy.quantity` and `rmgpy._statmech` twice each —
they appear in both the main and the measure inventories, and the
inventories are concatenated without deduplication. -/
theorem install_duplicate_modules (argv : List String)
    (h : argv.contains "install" = true) :
    (extNames (selectExtensions argv).1).count "rmgpy.constants" = 2 ∧
    (extNames (selectExtensions argv).1).count "rmgpy.quantity" = 2 ∧
    (extNames (selectExtensions argv).1).count "rmgpy._statmech" = 2 := by
  rw [(extModules_selection argv).1 h]
  refine ⟨by decide, by decide, by decide⟩

/-- Witness for C9 at the command line `["setup.py", "install"]`. -/
theorem install_duplicate_modules_witness :
    (extNames (selectExtensions ["setup.py", "install"]).1).count "rmgpy.constants" = 2 ∧
    (extNames (selectExtensions ["setup.py", "install"]).1).count "rmgpy.quantity" = 2 :=
  ⟨(install_duplicate_modules ["setup.py", "install"] (by decide)).1,
   (install_duplicate_modules ["setup.py", "install"] (by decide)).2.1⟩

/-- C10: the `main`/`measure`/`solver` branches remove exactly the first
occurrence of the selected keyword from `sys.argv` (the keyword count drops
by one, every other string's count is unchanged); the `install` branch and
the no-keyword case leave `sys.argv` unchanged. -/
theorem argv_frame_effect (argv : List String) :
    (argv.contains "install" = true → (selectExtensions argv).2 = argv) ∧
    (argv.contains "install" = false → argv.contains "main" = true →
      (selectExtensions argv).2 = argv.erase "main" ∧
      (selectExtensions argv).2.count "main" + 1 = argv.count "main" ∧
      ∀ s : String, s ≠ "main" → (selectExtensions argv).2.count s = argv.count s) ∧
    (argv.contains "install" = false → argv.contains "main" = false →
      argv.contains "measure" = true →
      (selectExtensions argv).2 = argv.erase "measure" ∧
      (selectExtensions argv).2.count "measure" + 1 = argv.count "measure" ∧
      ∀ s : String, s ≠ "measure" → (selectExtensions argv).2.count s = argv.count s) ∧
    (argv.contains "install" = false → argv.contains "main" = false →
      argv.contains "measure" = false → argv.contains "solver" = true →
      (selectExtensions argv).2 = argv.erase "solver" ∧
      (selectExtensions argv).2.count "solver" + 1 = argv.count "solver" ∧
      ∀ s : String, s ≠ "solver" → (selectExtensions argv).2.count s = argv.count s) ∧
    (argv.contains "install" = false → argv.contains "main" = false →
      argv.contains "measure" = false → argv.contains "solver" = false →
      (selectExtensions argv).2 = argv) := by
  have step : ∀ kw : String, kw ∈ argv → (selectExtensions argv).2 = argv.erase kw →
      (selectExtensions argv).2.count kw + 1 = argv.count kw ∧
      ∀ s : String, s ≠ kw → (selectExtensions argv).2.count s = argv.count s := by
    intro kw hmem heq
    constructor
    · rw [heq, List.count_erase_self]
      have : 0 < argv.count kw := List.count_pos_iff.mpr hmem
      omega
    · intro s hs
      rw [heq]
      exact List.count_erase_of_ne (by simpa using hs) argv
  refine ⟨?_, ?_, ?_, ?_, ?_⟩ <;> intro h1
  · have h1' : "install" ∈ argv := by simpa using h1
    simp [selectExtensions, h1']
  all_goals intro h2
  all_goals
    have h1' : "install" ∉ argv := by simpa using h1
  · have h2' : "main" ∈ argv := by simpa using h2
    have heq : (selectExtensions argv).2 = argv.erase "main" := by
      simp [selectExtensions, h1', h2']
    exact ⟨heq, step "main" h2' heq⟩
  all_goals intro h3
  all_goals
    have h2' : "main" ∉ argv := by simpa using h2
  · have h3' : "measure" ∈ argv := by simpa using h3
    have heq : (selectExtensions argv).2 = argv.erase "measure" := by
      simp [selectExtensions, h1', h2', h3']
    exact ⟨heq, step "measure" h3' heq⟩
  all_goals intro h4
  all_goals
    have h3' : "measure" ∉ argv := by simpa using h3
  · have h4' : "solver" ∈ argv := by simpa using h4
    have heq : (selectExtensions argv).2 = argv.erase "solver" := by
      simp [selectExtensions, h1', h2', h3', h4']
    exact ⟨heq, step "solver" h4' heq⟩
  · have h4' : "solver" ∉ argv := by simpa using h4
    simp [selectExtensions, h1', h2', h3', h4']

/-- Witness for C10 at concrete command lines: `install` leaves `sys.argv`
alone even when `main` is also present, and a `main` build removes only the
first `main` token. -/
theorem argv_frame_effect_witness :
    (selectExtensions ["setup.py", "install", "main"]).2 = ["setup.py", "install", "main"] ∧
    (selectExtensions ["setup.py", "build_ext", "main", "main"]).2 =
      ["setup.py", "build_ext", "main"] :=
  ⟨(argv_frame_effect _).1 (by decide),
   (((argv_frame_effect ["setup.py", "build_ext", "main", "main"]).2.1
      (by decide) (by decide)).1).trans (by decide)⟩

end Setup

namespace GraphCore

/-- The two failure modes of `addEdge` named by §4.1 of the spec. -/
inductive AddEdgeError where
  | duplicateEdge
  | unknownVertex
deriving DecidableEq, Repr

/-- Modelled from the spec: the Graph Core (`rmgpy.molecule.graph`) is
declared by the build manifest but its source is not provided.  Per §3 and
§9, a Graph owns its vertices and edges, both referenced by opaque integer
identifiers; an edge is an unordered pair of vertex identifiers carrying a
label set, with at most one edge per unordered pair.  An edge record here is
`(edge id, endpoint, endpoint, labels)`. -/
structure LGraph where
  vertices : List Nat
  edges : List (Nat × Nat × Nat × List Nat)
  nextEdgeId : Nat
deriving DecidableEq, Repr

/-- Does the unordered pair `{u, v}` already carry an edge? -/
def hasEdgeBetween (g : LGraph) (u v : Nat) : Bool :=
  g.edges.any fun e => (e.2.1 == u && e.2.2.1 == v) || (e.2.1 == v && e.2.2.1 == u)

/-- The edge identifiers currently allocated in `g`. -/
def edgeIds (g : LGraph) : List Nat :=
  g.edges.map (·.1)

/-- Graph invariant: every edge's endpoints are vertices of the graph, and
every allocated edge identifier is below the allocation counter. -/
def WellFormed (g : LGraph) : Prop :=
  (∀ e ∈ g.edges, e.2.1 ∈ g.vertices ∧ e.2.2.1 ∈ g.vertices) ∧
  (∀ e ∈ g.edges, e.1 < g.nextEdgeId)

instance (g : LGraph) : Decidable (WellFormed g) := by
  unfold WellFormed; infer_instance

/-- Modelled from the spec: `addEdge(v1, v2, labels) -> EdgeId` of §4.1,
failing with `UnknownVertex` if either endpoint is absent and with
`DuplicateEdge` if the unordered pair already has an edge; otherwise the
edge is stored under a fresh identifier which is returned. -/
def addEdge (g : LGraph) (v1 v2 : Nat) (ls : List Nat) :
    Except AddEdgeError (Nat × LGraph) :=
  if !(g.vertices.contains v1 && g.vertices.contains v2) then
    .error .unknownVertex
  else if hasEdgeBetween g v1 v2 then
    .error .duplicateEdge
  else
    .ok (g.nextEdgeId,
      ⟨g.vertices, (g.nextEdgeId, v1, v2, ls) :: g.edges, g.nextEdgeId + 1⟩)

/-- The edge identifier `addEdge` hands back, when it succeeds. -/
def addEdgeResultId (g : LGraph) (v1 v2 : Nat) (ls : List Nat) : Option Nat :=
  match addEdge g v1 v2 ls with
  | .ok (i, _) => some i
  | .error _ => none

end GraphCore

namespace GraphCore

/-- C5: on a well-formed graph, `addEdge` fails with `DuplicateEdge` exactly
when the unordered pair already has an edge, fails with `UnknownVertex` when
either endpoint is absent, and in every other case stores the edge and
returns the fresh identifier `g.nextEdgeId`, which no existing edge uses. -/
theorem addEdge_cases (g : LGraph) (v1 v2 : Nat) (ls : List Nat)
    (hwf : WellFormed g) :
    (hasEdgeBetween g v1 v2 = true →
      addEdge g v1 v2 ls = .error .duplicateEdge) ∧
    ((v1 ∉ g.vertices ∨ v2 ∉ g.vertices) →
      addEdge g v1 v2 ls = .error .unknownVertex) ∧
    (v1 ∈ g.vertices → v2 ∈ g.vertices → hasEdgeBetween g v1 v2 = false →
      addEdgeResultId g v1 v2 ls = some g.nextEdgeId ∧
      (edgeIds g).contains g.nextEdgeId = false) := by
  refine ⟨?_, ?_, ?_⟩
  · intro hdup
    have hdup0 := hdup
    rw [hasEdgeBetween, List.any_eq_true] at hdup
    obtain ⟨e, hmem, hcase⟩ := hdup
    simp only [Bool.or_eq_true, Bool.and_eq_true, beq_iff_eq] at hcase
    have hep := hwf.1 e hmem
    have hv1 : v1 ∈ g.vertices := by
      rcases hcase with ⟨h1, h2⟩ | ⟨h1, h2⟩
      · rw [← h1]; exact hep.1
      · rw [← h2]; exact hep.2
    have hv2 : v2 ∈ g.vertices := by
      rcases hcase with ⟨h1, h2⟩ | ⟨h1, h2⟩
      · rw [← h2]; exact hep.2
      · rw [← h1]; exact hep.1
    simp [addEdge, hv1, hv2, hdup0]
  · intro habs
    have hc : (g.vertices.contains v1 && g.vertices.contains v2) = false := by
      rcases habs with h | h <;> simp [h]
    unfold addEdge
    rw [hc]
    rfl
  · intro hv1 hv2 hnodup
    constructor
    · simp [addEdgeResultId, addEdge, hv1, hv2, hnodup]
    · have hfresh : g.nextEdgeId ∉ edgeIds g := by
        intro hmem
        rw [edgeIds, List.mem_map] at hmem
        obtain ⟨e, he, hid⟩ := hmem
        have hlt := hwf.2 e he
        omega
      simpa using hfresh

/-- A tiny concrete graph: vertices 1 and 2, one edge between them. -/
def demoGraph : LGraph :=
  ⟨[1, 2, 3], [(0, 1, 2, [5])], 1⟩

/-- Witness for C5 on `demoGraph`: re-adding the existing edge (in either
orientation) is a duplicate, an absent endpoint is unknown, and the open
pair `{1, 3}` gets the fresh identifier 1. -/
theorem addEdge_cases_witness :
    addEdge demoGraph 2 1 [] = .error .duplicateEdge ∧
    addEdge demoGraph 1 7 [] = .error .unknownVertex ∧
    addEdgeResultId demoGraph 1 3 [] = some 1 ∧
    (edgeIds demoGraph).contains 1 = false :=
  ⟨(addEdge_cases demoGraph 2 1 [] (by decide)).1 (by decide),
   (addEdge_cases demoGraph 1 7 [] (by decide)).2.1 (Or.inr (by decide)),
   ((addEdge_cases demoGraph 1 3 [] (by decide)).2.2 (by decide) (by decide) (by decide)).1,
   ((addEdge_cases demoGraph 1 3 [] (by decide)).2.2 (by decide) (by decide) (by decide)).2⟩

end GraphCore

namespace Mol

/-- The four concrete bond orders of the data model (§3). -/
inductive BondOrder where
  | single
  | double
  | triple
  | aromatic
deriving DecidableEq, Repr, Fintype

/-- Modelled from the spec: the Molecule Model (`rmgpy.molecule.molecule`)
is declared by the build manifest but its source is not provided.  Per §3 a
Molecule is a chemical graph whose vertices carry one concrete label (the
element/isotope/radical/charge state, abstracted here to a `Nat`) and whose
edges carry one concrete bond order; edges are unordered and at most one
joins a pair of vertices. -/
structure Molecule where
  n : Nat
  label : Fin n → Nat
  bonds : List (Fin n × Fin n × BondOrder)

/-- The bond order between `u` and `v`, if any; lookups ignore the stored
orientation, so the edge is unordered. -/
def Molecule.bond (M : Molecule) (u v : Fin M.n) : Option BondOrder :=
  (M.bonds.find? fun e => (e.1 == u && e.2.1 == v) || (e.1 == v && e.2.1 == u)).map (·.2.2)

/-- Modelled from the spec: the automorphism-mode compatibility predicate of
the Isomorphism Engine (§4.5, source not provided) — a self-mapping is
accepted iff corresponding vertices have identical labels and corresponding
vertex pairs have identical bond records. -/
def isAuto (M : Molecule) (σ : Equiv.Perm (Fin M.n)) : Prop :=
  (∀ i, M.label (σ i) = M.label i) ∧ ∀ i j, M.bond (σ i) (σ j) = M.bond i j

instance (M : Molecule) : DecidablePred (isAuto M) := by
  unfold isAuto; infer_instance

/-- Modelled from the spec: automorphism enumeration (§4.5 mode 3, source
not provided) collects every accepted self-mapping rather than stopping at
the first. -/
def AutomorphismSet (M : Molecule) : Finset (Equiv.Perm (Fin M.n)) :=
  Finset.univ.filter (isAuto M)

/-- Modelled from the spec: `symmetryNumber(molecule)` (§4.6, source not
provided) is the size of the automorphism set. -/
def symmetryNumber (M : Molecule) : Nat :=
  (AutomorphismSet M).card

/-- C3: for every molecule, the enumerated automorphism set contains the
identity, is closed under composition and inversion, and has size at least
one, so the symmetry number is an integer ≥ 1. -/
theorem automorphism_closure (M : Molecule) :
    (1 : Equiv.Perm (Fin M.n)) ∈ AutomorphismSet M ∧
    (∀ σ τ : Equiv.Perm (Fin M.n), σ ∈ AutomorphismSet M → τ ∈ AutomorphismSet M →
      σ * τ ∈ AutomorphismSet M) ∧
    (∀ σ : Equiv.Perm (Fin M.n), σ ∈ AutomorphismSet M → σ⁻¹ ∈ AutomorphismSet M) ∧
    1 ≤ (AutomorphismSet M).card ∧ 1 ≤ symmetryNumber M := by
  have hid : (1 : Equiv.Perm (Fin M.n)) ∈ AutomorphismSet M := by
    simp only [AutomorphismSet, Finset.mem_filter, isAuto]
    exact ⟨Finset.mem_univ _, fun i => rfl, fun i j => rfl⟩
  have hcomp : ∀ σ τ : Equiv.Perm (Fin M.n), σ ∈ AutomorphismSet M →
      τ ∈ AutomorphismSet M → σ * τ ∈ AutomorphismSet M := by
    intro σ τ hσ hτ
    simp only [AutomorphismSet, Finset.mem_filter, isAuto] at hσ hτ ⊢
    obtain ⟨-, hσ1, hσ2⟩ := hσ
    obtain ⟨-, hτ1, hτ2⟩ := hτ
    refine ⟨Finset.mem_univ _, fun i => ?_, fun i j => ?_⟩
    · rw [Equiv.Perm.mul_apply, hσ1, hτ1]
    · rw [Equiv.Perm.mul_apply, Equiv.Perm.mul_apply, hσ2, hτ2]
  have hinv : ∀ σ : Equiv.Perm (Fin M.n), σ ∈ AutomorphismSet M →
      σ⁻¹ ∈ AutomorphismSet M := by
    intro σ hσ
    simp only [AutomorphismSet, Finset.mem_filter, isAuto] at hσ ⊢
    obtain ⟨-, hσ1, hσ2⟩ := hσ
    refine ⟨Finset.mem_univ _, fun i => ?_, fun i j => ?_⟩
    · conv_rhs => rw [← Equiv.Perm.apply_inv_self σ i]
      rw [hσ1]
    · conv_rhs => rw [← Equiv.Perm.apply_inv_self σ i, ← Equiv.Perm.apply_inv_self σ j]
      rw [hσ2]
  have hcard : 1 ≤ (AutomorphismSet M).card := Finset.card_pos.mpr ⟨1, hid⟩
  exact ⟨hid, hcomp, hinv, hcard, hcard⟩

/-- A two-atom molecule with one single bond and equal vertex labels. -/
def diatomic : Molecule :=
  ⟨2, fun _ => 0, [(0, 1, .single)]⟩

/-- Witness for C3 on the two-atom molecule: the identity is enumerated, the
swap composes and inverts inside the set, and the symmetry number is ≥ 1. -/
theorem automorphism_closure_witness :
    (1 : Equiv.Perm (Fin 2)) ∈ AutomorphismSet diatomic ∧
    Equiv.swap (0 : Fin 2) 1 * Equiv.swap (0 : Fin 2) 1 ∈ AutomorphismSet diatomic ∧
    (Equiv.swap (0 : Fin 2) 1)⁻¹ ∈ AutomorphismSet diatomic ∧
    1 ≤ symmetryNumber diatomic :=
  ⟨(automorphism_closure diatomic).1,
   (automorphism_closure diatomic).2.1 _ _ (by decide) (by decide),
   (automorphism_closure diatomic).2.2.1 _ (by decide),
   (automorphism_closure diatomic).2.2.2.2⟩

/-- The six-vertex ring of C4: all vertices carry the same label and the six
edges alternate between single and aromatic bond orders. -/
def altRing : Molecule :=
  ⟨6, fun _ => 0,
   [(0, 1, .single), (1, 2, .aromatic), (2, 3, .single),
    (3, 4, .aromatic), (4, 5, .single), (5, 0, .aromatic)]⟩

set_option maxHeartbeats 2000000 in
/-- C4 counterexample: automorphism enumeration on the alternating
single/aromatic six-ring does not return 12 mappings — a rotation by one
position maps a single bond onto an aromatic bond, so only rotations by an
even offset survive. -/
theorem altRing_sym_ne_twelve : symmetryNumber altRing ≠ 12 := by decide

set_option maxHeartbeats 2000000 in
/-- C4 (amended): the alternating single/aromatic six-ring has exactly 6
automorphisms (3 even rotations, each with and without a reflection through
an edge midpoint), so its symmetry number is 6. -/
theorem altRing_sym_eq_six :
    (AutomorphismSet altRing).card = 6 ∧ symmetryNumber altRing = 6 := by
  constructor <;> decide

end Mol


namespace SSSR

/-- An undirected multigraph for ring perception. -/
structure UGraph where
  vertices : List Nat
  edges : List (Nat × Nat)
deriving DecidableEq, Repr

/-- The block of the working partition containing vertex `v`, if any. -/
def findBlock (p : List (List Nat)) (v : Nat) : Option (List Nat) :=
  p.find? fun b => b.contains v

/-- Walk the edge list once, maintaining a partition of the vertices into
connected blocks: an edge inside one block is a ring edge (it closes a
cycle), an edge between two blocks is a tree edge (it merges them).
Returns (final partition, tree edges, ring edges). -/
def classifyEdges : List (Nat × Nat) → List (List Nat) →
    List (List Nat) × List (Nat × Nat) × List (Nat × Nat)
  | [], p => (p, [], [])
  | e :: rest, p =>
    match findBlock p e.1, findBlock p e.2 with
    | some b1, some b2 =>
      if b1 = b2 then
        let r := classifyEdges rest p
        (r.1, r.2.1, e :: r.2.2)
      else
        let r := classifyEdges rest ((b1 ++ b2) :: (p.erase b1).erase b2)
        (r.1, e :: r.2.1, r.2.2)
    | _, _ => classifyEdges rest p

/-- The singleton partition the walk starts from. -/
def initPartition (g : UGraph) : List (List Nat) :=
  g.vertices.map fun v => [v]

def connectedComponents (g : UGraph) : List (List Nat) :=
  (classifyEdges g.edges (initPartition g)).1

def treeEdges (g : UGraph) : List (Nat × Nat) :=
  (classifyEdges g.edges (initPartition g)).2.1

def ringEdges (g : UGraph) : List (Nat × Nat) :=
  (classifyEdges g.edges (initPartition g)).2.2

/-- Vertex `v` lies in some block of `p`. -/
def covered (p : List (List Nat)) (v : Nat) : Prop :=
  ∃ b ∈ p, v ∈ b

theorem covered_of_findBlock_ne_none {p : List (List Nat)} {v : Nat}
    (h : covered p v) : findBlock p v ≠ none := by
  intro hnone
  rw [findBlock, List.find?_eq_none] at hnone
  obtain ⟨b, hb, hv⟩ := h
  exact hnone b hb (by simpa using hv)

theorem covered_merge {p : List (List Nat)} {b1 b2 : List Nat} {v : Nat}
    (h : covered p v) :
    covered ((b1 ++ b2) :: (p.erase b1).erase b2) v := by
  obtain ⟨b, hb, hv⟩ := h
  by_cases e1 : b = b1
  · exact ⟨b1 ++ b2, List.mem_cons_self _ _, List.mem_append.mpr (Or.inl (e1 ▸ hv))⟩
  by_cases e2 : b = b2
  · exact ⟨b1 ++ b2, List.mem_cons_self _ _, List.mem_append.mpr (Or.inr (e2 ▸ hv))⟩
  · exact ⟨b, List.mem_cons_of_mem _ ((List.mem_erase_of_ne e2).mpr
      ((List.mem_erase_of_ne e1).mpr hb)), hv⟩

theorem classify_block_count :
    ∀ (es : List (Nat × Nat)) (p : List (List Nat)),
      (∀ e ∈ es, covered p e.1 ∧ covered p e.2) →
      (classifyEdges es p).1.length + (classifyEdges es p).2.1.length = p.length := by
  intro es
  induction es with
  | nil => intro p _; simp [classifyEdges]
  | cons e rest ih =>
    intro p hcov
    have hc1 := (hcov e (List.mem_cons_self _ _)).1
    have hc2 := (hcov e (List.mem_cons_self _ _)).2
    have hcovtail : ∀ x ∈ rest, covered p x.1 ∧ covered p x.2 :=
      fun x hx => hcov x (List.mem_cons_of_mem _ hx)
    cases hb1 : findBlock p e.1 with
    | none => exact absurd hb1 (covered_of_findBlock_ne_none hc1)
    | some b1 =>
      cases hb2 : findBlock p e.2 with
      | none => exact absurd hb2 (covered_of_findBlock_ne_none hc2)
      | some b2 =>
        by_cases heq : b1 = b2
        · simp only [classifyEdges, hb1, hb2, if_pos heq]
          exact ih p hcovtail
        · simp only [classifyEdges, hb1, hb2, if_neg heq]
          have hm1 : b1 ∈ p := List.mem_of_find?_eq_some hb1
          have hm2 : b2 ∈ p := List.mem_of_find?_eq_some hb2
          have hm2' : b2 ∈ p.erase b1 :=
            (List.mem_erase_of_ne (fun h => heq h.symm)).mpr hm2
          have hlen1 : (p.erase b1).length = p.length - 1 :=
            List.length_erase_of_mem hm1
          have hlen2 : ((p.erase b1).erase b2).length = (p.erase b1).length - 1 :=
            List.length_erase_of_mem hm2'
          have hple : 1 ≤ (p.erase b1).length := List.length_pos.mpr
            (List.ne_nil_of_mem hm2')
          have hple2 : 1 ≤ p.length := List.length_pos.mpr (List.ne_nil_of_mem hm1)
          have := ih ((b1 ++ b2) :: (p.erase b1).erase b2)
            (fun x hx => ⟨covered_merge (hcovtail x hx).1, covered_merge (hcovtail x hx).2⟩)
          simp only [List.length_cons] at this ⊢
          omega

theorem classify_edge_count :
    ∀ (es : List (Nat × Nat)) (p : List (List Nat)),
      (∀ e ∈ es, covered p e.1 ∧ covered p e.2) →
      (classifyEdges es p).2.1.length + (classifyEdges es p).2.2.length = es.length := by
  intro es
  induction es with
  | nil => intro p _; simp [classifyEdges]
  | cons e rest ih =>
    intro p hcov
    have hc1 := (hcov e (List.mem_cons_self _ _)).1
    have hc2 := (hcov e (List.mem_cons_self _ _)).2
    have hcovtail : ∀ x ∈ rest, covered p x.1 ∧ covered p x.2 :=
      fun x hx => hcov x (List.mem_cons_of_mem _ hx)
    cases hb1 : findBlock p e.1 with
    | none => exact absurd hb1 (covered_of_findBlock_ne_none hc1)
    | some b1 =>
      cases hb2 : findBlock p e.2 with
      | none => exact absurd hb2 (covered_of_findBlock_ne_none hc2)
      | some b2 =>
        by_cases heq : b1 = b2
        · simp only [classifyEdges, hb1, hb2, if_pos heq, List.length_cons]
          have := ih p hcovtail
          omega
        · simp only [classifyEdges, hb1, hb2, if_neg heq, List.length_cons]
          have := ih ((b1 ++ b2) :: (p.erase b1).erase b2)
            (fun x hx => ⟨covered_merge (hcovtail x hx).1, covered_merge (hcovtail x hx).2⟩)
          omega

end SSSR

namespace SSSR

/-- `a` and `b` are joined by some edge of `es` (in either orientation). -/
def hasPair (es : List (Nat × Nat)) (a b : Nat) : Prop :=
  (a, b) ∈ es ∨ (b, a) ∈ es

/-- `u` and `v` are connected by a walk over the edges of `es`. -/
def Connected (es : List (Nat × Nat)) (u v : Nat) : Prop :=
  Relation.ReflTransGen (hasPair es) u v

theorem hasPair_symm {es : List (Nat × Nat)} : Symmetric (hasPair es) :=
  fun _ _ h => h.symm

theorem conn_symm {es : List (Nat × Nat)} {u v : Nat} (h : Connected es u v) :
    Connected es v u :=
  Relation.ReflTransGen.symmetric hasPair_symm h

theorem conn_mono {es1 es2 : List (Nat × Nat)} (hsub : ∀ x ∈ es1, x ∈ es2)
    {u v : Nat} (h : Connected es1 u v) : Connected es2 u v :=
  Relation.ReflTransGen.mono (fun _ _ hab => hab.imp (hsub _) (hsub _)) h

/-- Every element of `l` survives erasing one copy of `a` from `l ++ a :: r`:
either it differs from `a`, or a second copy of `a` remains. -/
theorem mem_erase_append {l r : List (Nat × Nat)} {x a : Nat × Nat}
    (hx : x ∈ l) : x ∈ (l ++ a :: r).erase a := by
  by_cases hxa : x = a
  · subst hxa
    have hcount : 1 ≤ ((l ++ x :: r).erase x).count x := by
      rw [List.count_erase_self, List.count_append, List.count_cons_self]
      have : 1 ≤ l.count x := List.count_pos_iff.mpr hx
      omega
    exact List.count_pos_iff.mp (by omega)
  · exact (List.mem_erase_of_ne hxa).mpr
      (List.mem_append.mpr (Or.inl hx))

/-- Partition invariant: any two vertices sharing a block are connected by
the edges walked so far. -/
def Inv (p : List (List Nat)) (done : List (Nat × Nat)) : Prop :=
  ∀ b ∈ p, ∀ u ∈ b, ∀ v ∈ b, Connected done u v

theorem inv_mono {p : List (List Nat)} {d1 d2 : List (Nat × Nat)}
    (hsub : ∀ x ∈ d1, x ∈ d2) (h : Inv p d1) : Inv p d2 :=
  fun b hb u hu v hv => conn_mono hsub (h b hb u hu v hv)

theorem inv_merge {p : List (List Nat)} {done : List (Nat × Nat)}
    {b1 b2 : List Nat} {e : Nat × Nat}
    (hinv : Inv p done) (hb1 : b1 ∈ p) (hb2 : b2 ∈ p)
    (he1 : e.1 ∈ b1) (he2 : e.2 ∈ b2) :
    Inv ((b1 ++ b2) :: (p.erase b1).erase b2) (done ++ [e]) := by
  have hsub : ∀ x ∈ done, x ∈ done ++ [e] :=
    fun x hx => List.mem_append.mpr (Or.inl hx)
  have hstep : Connected (done ++ [e]) e.1 e.2 :=
    Relation.ReflTransGen.single (Or.inl (by simp))
  have cross : ∀ u ∈ b1, ∀ v ∈ b2, Connected (done ++ [e]) u v := by
    intro u hu v hv
    have h1 : Connected (done ++ [e]) u e.1 :=
      conn_mono hsub (hinv b1 hb1 u hu e.1 he1)
    have h2 : Connected (done ++ [e]) e.2 v :=
      conn_mono hsub (hinv b2 hb2 e.2 he2 v hv)
    exact (h1.trans hstep).trans h2
  intro b hb u hu v hv
  rcases List.mem_cons.mp hb with hmerged | hrest
  · subst hmerged
    rcases List.mem_append.mp hu with hu1 | hu2 <;>
      rcases List.mem_append.mp hv with hv1 | hv2
    · exact conn_mono hsub (hinv b1 hb1 u hu1 v hv1)
    · exact cross u hu1 v hv2
    · exact conn_symm (cross v hv1 u hu2)
    · exact conn_mono hsub (hinv b2 hb2 u hu2 v hv2)
  · exact conn_mono hsub
      (hinv b (List.mem_of_mem_erase (List.mem_of_mem_erase hrest)) u hu v hv)

theorem classify_ring_conn :
    ∀ (es : List (Nat × Nat)) (p : List (List Nat)) (done : List (Nat × Nat)),
      Inv p done →
      ∀ e ∈ (classifyEdges es p).2.2,
        e ∈ es ∧ Connected ((done ++ es).erase e) e.1 e.2 := by
  intro es
  induction es with
  | nil => intro p done _ e he; simp [classifyEdges] at he
  | cons a rest ih =>
    intro p done hinv e he
    have hsub1 : ∀ x ∈ done, x ∈ done ++ [a] :=
      fun x hx => List.mem_append.mpr (Or.inl hx)
    have happ : (done ++ [a]) ++ rest = done ++ a :: rest := by simp
    cases hb1 : findBlock p a.1 with
    | none =>
      rw [classifyEdges, hb1] at he
      obtain ⟨hmem, hconn⟩ := ih p (done ++ [a]) (inv_mono hsub1 hinv) e he
      exact ⟨List.mem_cons_of_mem _ hmem, by rwa [happ] at hconn⟩
    | some b1 =>
      cases hb2 : findBlock p a.2 with
      | none =>
        rw [classifyEdges, hb1, hb2] at he
        obtain ⟨hmem, hconn⟩ := ih p (done ++ [a]) (inv_mono hsub1 hinv) e he
        exact ⟨List.mem_cons_of_mem _ hmem, by rwa [happ] at hconn⟩
      | some b2 =>
        have hm1 : b1 ∈ p := List.mem_of_find?_eq_some hb1
        have hm2 : b2 ∈ p := List.mem_of_find?_eq_some hb2
        have hv1 : a.1 ∈ b1 := by
          have := List.find?_some hb1
          simpa using this
        have hv2 : a.2 ∈ b2 := by
          have := List.find?_some hb2
          simpa using this
        by_cases heq : b1 = b2
        · simp only [classifyEdges, hb1, hb2, if_pos heq] at he
          simp only [List.mem_cons] at he
          rcases he with rfl | he
          · refine ⟨List.mem_cons_self _ _, ?_⟩
            have hconn : Connected done e.1 e.2 :=
              hinv b1 hm1 e.1 hv1 e.2 (heq ▸ hv2)
            exact conn_mono (fun x hx => mem_erase_append hx) hconn
          · obtain ⟨hmem, hconn⟩ := ih p (done ++ [a]) (inv_mono hsub1 hinv) e he
            exact ⟨List.mem_cons_of_mem _ hmem, by rwa [happ] at hconn⟩
        · simp only [classifyEdges, hb1, hb2, if_neg heq] at he
          obtain ⟨hmem, hconn⟩ := ih ((b1 ++ b2) :: (p.erase b1).erase b2)
            (done ++ [a]) (inv_merge hinv hm1 hm2 hv1 hv2) e he
          exact ⟨List.mem_cons_of_mem _ hmem, by rwa [happ] at hconn⟩

end SSSR

namespace SSSR

/-- The neighbours of `u` along the edges `es`. -/
def neighbors (es : List (Nat × Nat)) (u : Nat) : List Nat :=
  es.filterMap fun e =>
    if e.1 == u then some e.2 else if e.2 == u then some e.1 else none

/-- Fuelled depth-first path search over `es` from `u` to `target`,
avoiding `visited`; returns the vertex sequence of a path when found. -/
def dfsPath (es : List (Nat × Nat)) : Nat → List Nat → Nat → Nat → Option (List Nat)
  | 0, _, _, _ => none
  | fuel + 1, visited, u, target =>
    if u = target then some [u]
    else
      (neighbors es u).findSome? fun w =>
        if visited.contains w then none
        else (dfsPath es fuel (u :: visited) w target).map (u :: ·)

/-- The ring closed by the non-tree edge `e`: the tree path joining its
endpoints (the closing edge itself is implicit). -/
def ringThrough (g : UGraph) (e : Nat × Nat) : List Nat :=
  (dfsPath (treeEdges g) (g.vertices.length + 1) [] e.2 e.1).getD []

/-- Modelled from the spec: `sssr(graph)` (§4.2, source not provided) keeps
exactly one independent ring per edge not covered by the spanning forest,
i.e. `|E| - |V| + #components` rings, the cycle rank. -/
def sssr (g : UGraph) : List (List Nat) :=
  (ringEdges g).map (ringThrough g)

/-- Construction invariant: every edge endpoint is a vertex of the graph. -/
def WFGraph (g : UGraph) : Prop :=
  ∀ e ∈ g.edges, e.1 ∈ g.vertices ∧ e.2 ∈ g.vertices

instance (g : UGraph) : Decidable (WFGraph g) := by
  unfold WFGraph; infer_instance

/-- A graph is acyclic iff every edge is a bridge: erasing the edge leaves
its endpoints disconnected.  (The standard forest characterisation; with a
cycle the remaining cycle edges keep the endpoints connected, and without
cycles every edge separates.) -/
def Acyclic (g : UGraph) : Prop :=
  ∀ e ∈ g.edges, ¬ Connected (g.edges.erase e) e.1 e.2

/-- C2: for a well-formed graph the ring perception returns exactly
`|E| - |V| + #components` rings, and an acyclic graph yields no rings. -/
theorem sssr_count (g : UGraph) (hwf : WFGraph g) :
    ((sssr g).length : ℤ) =
      (g.edges.length : ℤ) - (g.vertices.length : ℤ) +
        ((connectedComponents g).length : ℤ) ∧
    (Acyclic g → sssr g = []) := by
  have hcov : ∀ e ∈ g.edges, covered (initPartition g) e.1 ∧ covered (initPartition g) e.2 := by
    intro e he
    exact ⟨⟨[e.1], List.mem_map.mpr ⟨e.1, (hwf e he).1, rfl⟩, List.mem_singleton.mpr rfl⟩,
           ⟨[e.2], List.mem_map.mpr ⟨e.2, (hwf e he).2, rfl⟩, List.mem_singleton.mpr rfl⟩⟩
  constructor
  · have h1 := classify_block_count g.edges (initPartition g) hcov
    have h2 := classify_edge_count g.edges (initPartition g) hcov
    have hlen : (initPartition g).length = g.vertices.length := by
      simp [initPartition]
    have hsssr : (sssr g).length = (classifyEdges g.edges (initPartition g)).2.2.length := by
      simp [sssr, ringEdges]
    rw [hsssr]
    unfold connectedComponents
    omega
  · intro hacyc
    have hre : ringEdges g = [] := by
      rw [List.eq_nil_iff_forall_not_mem]
      intro e he
      have hinv0 : Inv (initPartition g) [] := by
        intro b hb u hu v hv
        obtain ⟨w, hw, rfl⟩ := List.mem_map.mp hb
        rw [List.mem_singleton.mp hu, List.mem_singleton.mp hv]
        exact Relation.ReflTransGen.refl
      obtain ⟨hmem, hconn⟩ := classify_ring_conn g.edges (initPartition g) [] hinv0 e he
      rw [List.nil_append] at hconn
      exact hacyc e hmem hconn
    simp [sssr, hre]

/-- The 3-cycle on vertices 0, 1, 2. -/
def triangleGraph : UGraph := ⟨[0, 1, 2], [(0, 1), (1, 2), (2, 0)]⟩

/-- Two isolated vertices: trivially acyclic. -/
def edgelessGraph : UGraph := ⟨[0, 1], []⟩


/-- Witness for C2: the triangle's ring count is 3 - 3 + 1 = 1, and the
edgeless two-vertex graph (acyclic) has no rings. -/
theorem sssr_count_witness :
    WFGraph triangleGraph ∧
    ((sssr triangleGraph).length : ℤ) =
      (triangleGraph.edges.length : ℤ) - (triangleGraph.vertices.length : ℤ) +
        ((connectedComponents triangleGraph).length : ℤ) ∧
    sssr edgelessGraph = [] :=
  ⟨by decide, (sssr_count triangleGraph (by decide)).1,
   (sssr_count edgelessGraph (by decide)).2 (fun e he => absurd he (List.not_mem_nil e))⟩

end SSSR

namespace Grp

open Mol

/-- A pattern edge's acceptable bond orders (§3): a non-empty set of
concrete orders, or the "any bond" wildcard. -/
inductive BondSpec where
  | anyBond
  | oneOf (orders : List BondOrder)
deriving DecidableEq, Repr

/-- Modelled from the spec: the edge-label compatibility primitive of the
Group Model (§4.4, `rmgpy.molecule.group` source not provided) — set
membership, except that the "any bond" wildcard matches every order. -/
def bondMatch : BondSpec → BondOrder → Bool
  | .anyBond, _ => true
  | .oneOf os, b => os.contains b

/-- Modelled from the spec: the Group/Pattern Model (§3, §4.4, source not
provided) — a chemical graph whose vertices and edges carry *sets* of
acceptable labels, used read-only as a match template. -/
structure GroupPattern where
  k : Nat
  vlabels : Fin k → List Nat
  edges : List (Fin k × Fin k × BondSpec)

/-- A pattern edge is satisfied under the vertex mapping `f`: the molecule
must have a bond between the images, with a compatible order. -/
def edgeOK (M : Molecule) {k : Nat} (f : Fin k → Fin M.n)
    (e : Fin k × Fin k × BondSpec) : Bool :=
  match M.bond (f e.1) (f e.2.1) with
  | some o => bondMatch e.2.2 o
  | none => false

/-- Modelled from the spec: the subgraph-isomorphism query (§4.5 mode 2,
source not provided) — does some injective vertex mapping send every
pattern vertex to a molecule vertex with an acceptable label and every
pattern edge to a compatible molecule bond?  Target edges with no pattern
counterpart are ignored. -/
def subMatch (G : GroupPattern) (M : Molecule) : Bool :=
  decide (∃ f : Fin G.k → Fin M.n, Function.Injective f ∧
    (∀ i, M.label (f i) ∈ G.vlabels i) ∧
    (∀ e ∈ G.edges, edgeOK M f e = true))

/-- Edge-spec widening: every order accepted by `s` is accepted by `t`. -/
def specLE (s t : BondSpec) : Prop :=
  ∀ o : BondOrder, bondMatch s o = true → bondMatch t o = true

instance (s t : BondSpec) : Decidable (specLE s t) := by
  unfold specLE; infer_instance

theorem forall2_mem_right {α β : Type} {R : α → β → Prop} {l1 : List α} {l2 : List β}
    (h : List.Forall₂ R l1 l2) : ∀ b ∈ l2, ∃ a ∈ l1, R a b := by
  induction h with
  | nil => simp
  | cons hR htail ih =>
    intro b hb
    rcases List.mem_cons.mp hb with rfl | hb'
    · exact ⟨_, List.mem_cons_self _ _, hR⟩
    · obtain ⟨a, ha, hR'⟩ := ih b hb'
      exact ⟨a, List.mem_cons_of_mem _ ha, hR'⟩

/-- C6: widening a pattern's label sets is monotone for matching — if two
groups share a vertex/edge skeleton (same vertex indices, edges paired with
equal endpoints), every vertex label set of the first is contained in the
corresponding one of the second, and every edge spec of the first is at
most as permissive as the corresponding one of the second, then every
molecule matched by the first group is matched by the second. -/
theorem subMatch_monotone (k : Nat) (v1 v2 : Fin k → List Nat)
    (E1 E2 : List (Fin k × Fin k × BondSpec))
    (hv : ∀ i, v1 i ⊆ v2 i)
    (he : List.Forall₂ (fun a b => a.1 = b.1 ∧ a.2.1 = b.2.1 ∧ specLE a.2.2 b.2.2) E1 E2)
    (M : Molecule) (h1 : subMatch ⟨k, v1, E1⟩ M = true) :
    subMatch ⟨k, v2, E2⟩ M = true := by
  rw [subMatch, decide_eq_true_iff] at h1 ⊢
  obtain ⟨f, hinj, hvert, hedge⟩ := h1
  refine ⟨f, hinj, fun i => hv i (hvert i), fun e2 he2 => ?_⟩
  obtain ⟨e1, he1, hfst, hsnd, hle⟩ := forall2_mem_right he e2 he2
  have h := hedge e1 he1
  rw [edgeOK] at h ⊢
  rw [← hfst, ← hsnd]
  cases hb : Molecule.bond M (f e1.1) (f e1.2.1) with
  | none => rw [hb] at h; exact absurd h (by simp)
  | some o => rw [hb] at h; exact hle o h

/-- A two-vertex pattern demanding label 0 on both ends of a single bond. -/
def narrowGroup : GroupPattern :=
  ⟨2, fun _ => [0], [(0, 1, .oneOf [.single])]⟩

/-- The same skeleton with wider label sets and an any-bond wildcard. -/
def wideGroup : GroupPattern :=
  ⟨2, fun _ => [0, 1], [(0, 1, .anyBond)]⟩

/-- Witness for C6: the narrow pattern matches the two-atom molecule, and
the widening theorem transports that match to the wide pattern. -/
theorem subMatch_monotone_witness :
    subMatch narrowGroup diatomic = true ∧ subMatch wideGroup diatomic = true :=
  ⟨by decide,
   subMatch_monotone 2 narrowGroup.vlabels wideGroup.vlabels narrowGroup.edges wideGroup.edges
     (by decide)
     (List.Forall₂.cons ⟨rfl, rfl, by decide⟩ List.Forall₂.nil)
     diatomic (by decide)⟩

end Grp

namespace Bounded

open Mol

/-- The outcomes of a bounded match query (§5, §7). -/
inductive SearchOutcome where
  | matched
  | noMatch
  | searchAborted
deriving DecidableEq, Repr

/-- Modelled from the spec: the bounded search variant (§5, source not
provided) — the caller-supplied step budget is checked between search
steps; exhausting the candidates yields `noMatch`, exhausting the budget
with candidates still open yields `searchAborted`. -/
def boundedSearch {α : Type} (p : α → Bool) : List α → Nat → SearchOutcome
  | [], _ => .noMatch
  | _ :: _, 0 => .searchAborted
  | c :: cs, fuel + 1 => if p c then .matched else boundedSearch p cs fuel

theorem boundedSearch_aborted_iff {α : Type} (p : α → Bool) :
    ∀ (cs : List α) (fuel : Nat),
      boundedSearch p cs fuel = .searchAborted ↔
        fuel < cs.length ∧ ((cs.take fuel).all fun c => !p c) = true := by
  intro cs
  induction cs with
  | nil => intro fuel; simp [boundedSearch]
  | cons c cs ih =>
    intro fuel
    cases fuel with
    | zero => simp [boundedSearch]
    | succ fuel =>
      cases hp : p c with
      | true => simp [boundedSearch, hp]
      | false => simpa [boundedSearch, hp, Nat.succ_lt_succ_iff] using ih fuel

theorem boundedSearch_noMatch {α : Type} (p : α → Bool) :
    ∀ (cs : List α) (fuel : Nat),
      boundedSearch p cs fuel = .noMatch →
        (cs.all fun c => !p c) = true ∧ cs.length ≤ fuel := by
  intro cs
  induction cs with
  | nil => intro fuel _; simp
  | cons c cs ih =>
    intro fuel
    cases fuel with
    | zero => simp [boundedSearch]
    | succ fuel =>
      cases hp : p c with
      | true => simp [boundedSearch, hp]
      | false =>
        intro h
        rw [boundedSearch, hp] at h
        simp only [Bool.false_eq_true, if_false] at h
        obtain ⟨hall, hlen⟩ := ih fuel h
        refine ⟨?_, by simpa [Nat.succ_le_succ_iff] using hlen⟩
        simp [hp, hall]

/-- Does the candidate tuple `t` (vertex `i` of `A` ↦ `t[i]` in `B`)
realise an exact isomorphism: equal labels and equal bond records? -/
def checkIso (A B : Molecule) (t : List (Fin B.n)) : Bool :=
  (decide (t.length = A.n)) &&
  ((List.finRange A.n).all fun i =>
    match t.get? i.val with
    | some w => decide (B.label w = A.label i)
    | none => false) &&
  ((List.finRange A.n).all fun i => (List.finRange A.n).all fun j =>
    match t.get? i.val, t.get? j.val with
    | some wi, some wj => decide (B.bond wi wj = A.bond i j)
    | _, _ => false)

/-- The candidate mappings an exact-isomorphism search walks through: every
permutation tuple of `B`'s vertices when the sizes agree, none otherwise. -/
def isoCandidates (A B : Molecule) : List (List (Fin B.n)) :=
  if A.n = B.n then (List.finRange B.n).permutations' else []

/-- Modelled from the spec: the bounded exact-isomorphism query between two
molecules (§4.5 mode 1 under the §5 budget, source not provided). -/
def boundedIso (A B : Molecule) (fuel : Nat) : SearchOutcome :=
  boundedSearch (checkIso A B) (isoCandidates A B) fuel

/-- C7: a bounded match query returns `searchAborted` exactly when the
budget runs out before the candidate space is exhausted (and no candidate
inside the budget matched) — never `noMatch`; `noMatch` certifies that
every candidate was examined and failed inside the budget, and the
candidate list is exhaustive (it holds every permutation tuple). -/
theorem boundedIso_outcomes (A B : Molecule) (fuel : Nat) :
    (boundedIso A B fuel = .searchAborted ↔
      fuel < (isoCandidates A B).length ∧
      (((isoCandidates A B).take fuel).all fun t => !checkIso A B t) = true) ∧
    (boundedIso A B fuel = .noMatch →
      ((isoCandidates A B).all fun t => !checkIso A B t) = true ∧
      (isoCandidates A B).length ≤ fuel) ∧
    (A.n = B.n → ∀ t : List (Fin B.n), t.Perm (List.finRange B.n) →
      t ∈ isoCandidates A B) := by
  refine ⟨boundedSearch_aborted_iff _ _ _, boundedSearch_noMatch _ _ _, ?_⟩
  intro hn t ht
  rw [isoCandidates, if_pos hn]
  exact List.mem_permutations'.mpr ht

/-- A one-atom molecule labelled 0. -/
def soloA : Molecule := ⟨1, fun _ => 0, []⟩

/-- A one-atom molecule labelled 1. -/
def soloB : Molecule := ⟨1, fun _ => 1, []⟩

/-- Two atoms with equal labels, single-bonded. -/
def pairEq : Molecule := ⟨2, fun _ => 0, [(0, 1, .single)]⟩

/-- Two atoms with distinct labels, single-bonded. -/
def pairNe : Molecule := ⟨2, fun i => i.val, [(0, 1, .single)]⟩

/-- Witness for C7: with budget 5 the mismatched one-atom molecules give a
certified `noMatch` (all candidates examined and failed), while budget 1 on
the two-atom pair aborts with a candidate still unexamined. -/
theorem boundedIso_outcomes_witness :
    boundedIso soloA soloB 5 = .noMatch ∧
    ((isoCandidates soloA soloB).all fun t => !checkIso soloA soloB t) = true ∧
    (isoCandidates soloA soloB).length ≤ 5 ∧
    ([⟨0, Nat.one_pos⟩] : List (Fin soloB.n)) ∈ isoCandidates soloA soloB ∧
    boundedIso pairEq pairNe 1 = .searchAborted :=
  ⟨by decide,
   ((boundedIso_outcomes soloA soloB 5).2.1 (by decide)).1,
   ((boundedIso_outcomes soloA soloB 5).2.1 (by decide)).2,
   (boundedIso_outcomes soloA soloB 5).2.2 rfl _ (by decide),
   (boundedIso_outcomes pairEq pairNe 1).1.mpr ⟨by decide, by decide⟩⟩

end Bounded
